import Mathlib

/-!
Verification development for the LJ_reader repository: a family of
LabJack T7 data-acquisition scripts.  The definitions below are a
shallow embedding of the Python sources into Lean: floats are modelled
as real numbers (with an explicit `Option ℝ` type where numpy NaN
propagation matters), lists model the Python list buffers, and the
acquisition loops are modelled as step functions folded over a list of
per-cycle inputs.
-/

namespace LJReader

/- ===== Calibration constants, src/Multiplexer.py lines 19-27
   (identical in src/temp_function.py, src/lj_temp.py, src/multiplex2.py) ===== -/

noncomputable def a0 : ℝ := 207.313253
noncomputable def a1 : ℝ := -126.180277
noncomputable def a2 : ℝ := -3.928505
noncomputable def a3 : ℝ := -0.942699
noncomputable def a4 : ℝ := -0.215084
noncomputable def a5 : ℝ := -0.074933
noncomputable def a6 : ℝ := -0.016769
noncomputable def Zl : ℝ := 0.4969960998
noncomputable def Zu : ℝ := 1.030625219

/-- Fixed offset voltage subtracted from the input, `offset_v = 2.289562`
in every `cheb_eq` variant of the sources. -/
noncomputable def offset_v : ℝ := 2.289562

/-- Embedding of `np.clip(x, lo, hi)` for scalars: `min(max(x, lo), hi)`. -/
noncomputable def clip (x lo hi : ℝ) : ℝ := min (max x lo) hi

/-- The normalized argument computed inside `cheb_eq`:
after `Zv = Zv - offset_v`, `k = ((Zv - Zl) - (Zu - Zv)) / (Zu - Zl)`
(src/Multiplexer.py lines 39-41). -/
noncomputable def kOf (Zv : ℝ) : ℝ :=
  (((Zv - offset_v) - Zl) - (Zu - (Zv - offset_v))) / (Zu - Zl)

/-- The 7-term Chebyshev-style cosine sum applied to `acos_k`
(src/Multiplexer.py lines 43-51). -/
noncomputable def chebSum (acos_k : ℝ) : ℝ :=
  a0 * Real.cos (0 * acos_k) +
  a1 * Real.cos (1 * acos_k) +
  a2 * Real.cos (2 * acos_k) +
  a3 * Real.cos (3 * acos_k) +
  a4 * Real.cos (4 * acos_k) +
  a5 * Real.cos (5 * acos_k) +
  a6 * Real.cos (6 * acos_k)

/-- Embedding of `cheb_eq` from src/Multiplexer.py (lines 29-51): the
clamped calibration transform.  `acos_k = np.arccos(np.clip(k, -1, 1))`
followed by the 7-term cosine sum. -/
noncomputable def cheb_eq (Zv : ℝ) : ℝ :=
  chebSum (Real.arccos (clip (kOf Zv) (-1) 1))

/-- Reference definition of the calibration transform, written from the
words of claim C1 / spec section 4.1: subtract `offset_v`, form
`k = ((v - Zl) - (Zu - v)) / (Zu - Zl)` on the shifted voltage, and
return `sum_{i=0..6} a_i * cos(i * arccos(k))` (here `Real.arccos` is
Mathlib's total inverse cosine, which takes the saturated boundary
value outside `[-1, 1]`). -/
noncomputable def convertRef (v : ℝ) : ℝ :=
  a0 * Real.cos (0 * Real.arccos (kOf v)) +
  a1 * Real.cos (1 * Real.arccos (kOf v)) +
  a2 * Real.cos (2 * Real.arccos (kOf v)) +
  a3 * Real.cos (3 * Real.arccos (kOf v)) +
  a4 * Real.cos (4 * Real.arccos (kOf v)) +
  a5 * Real.cos (5 * Real.arccos (kOf v)) +
  a6 * Real.cos (6 * Real.arccos (kOf v))

/- ===== src/lj_temp.py: the unclamped variant with NaN semantics ===== -/

/-- A float value flowing through the lj_temp pipeline: `none` models a
numpy NaN, `some r` a finite float. -/
abbrev Flt : Type := Option ℝ

/-- Embedding of numpy `np.arccos` on a scalar: outside `[-1, 1]` it
returns NaN (`none`) without raising an exception; inside the domain it
returns the real inverse cosine. -/
noncomputable def arccosN (x : ℝ) : Flt :=
  if -1 ≤ x ∧ x ≤ 1 then some (Real.arccos x) else none

/-- Embedding of `cheb_eq` from src/lj_temp.py lines 24-40: identical to
the Multiplexer version except `k` is NOT clamped before `np.arccos`,
so an out-of-range `k` produces NaN, which then propagates through the
cosine sum (modelled by `Option.map`). -/
noncomputable def cheb_eq_lj (Zv : ℝ) : Flt :=
  (arccosN (kOf Zv)).map chebSum

/-- The `try: temp_kelvin = cheb_eq(real_voltage) except Exception`
block of src/lj_temp.py lines 103-106, with numpy scalar semantics:
evaluation never raises (an out-of-domain `arccos` yields NaN rather
than an exception), so the result is always `Except.ok`. -/
noncomputable def chebEvalExc (Zv : ℝ) : Except Unit Flt :=
  Except.ok (cheb_eq_lj Zv)

/-- `temp_kelvin` as the loop body computes it: the `except` branch
would substitute `np.nan`, but it is only taken on `Except.error`. -/
noncomputable def tempOfVoltage (Zv : ℝ) : Flt :=
  match chebEvalExc Zv with
  | .ok t => t
  | .error _ => none

/-- Python slicing `l[-cap:]`: keep only the last `cap` elements. -/
def lastN {α : Type} (cap : ℕ) (l : List α) : List α := l.drop (l.length - cap)

/-- The per-cycle inputs of the lj_temp acquisition loop: the elapsed
time `now` and the two channel readings from the device. -/
structure LjInput where
  now : ℝ
  ain0 : ℝ
  ain1 : ℝ

/-- The mutable buffers of src/lj_temp.py: the four data lists (lines
85-89) and the rows written so far to the two CSV files. -/
structure LjState where
  time_data : List ℝ
  real_voltage_data : List ℝ
  ain1_data : List ℝ
  temp_data : List Flt
  voltage_rows : List (List Flt)
  temp_rows : List (List Flt)

/-- One iteration of the acquisition loop of src/lj_temp.py lines
96-123: compute `real_voltage = ain1 - ain0`, convert it (the `except`
branch is unreachable), append to the four buffers, write one row to
each CSV file, then trim every buffer to the last `cap` points when the
time buffer grows past `cap` (the source uses the literal 1000). -/
noncomputable def ljTempCycle (cap : ℕ) (s : LjState) (inp : LjInput) : LjState :=
  let real_voltage := inp.ain1 - inp.ain0
  let temp_kelvin := tempOfVoltage real_voltage
  let t := s.time_data ++ [inp.now]
  let rv := s.real_voltage_data ++ [real_voltage]
  let av := s.ain1_data ++ [inp.ain1]
  let td := s.temp_data ++ [temp_kelvin]
  let vrows := s.voltage_rows ++ [[some inp.now, some real_voltage, some inp.ain1]]
  let trows := s.temp_rows ++ [[some inp.now, temp_kelvin]]
  if t.length > cap then
    ⟨lastN cap t, lastN cap rv, lastN cap av, lastN cap td, vrows, trows⟩
  else
    ⟨t, rv, av, td, vrows, trows⟩

/-- The buffers start empty (src/lj_temp.py lines 85-89). -/
def ljInit : LjState := ⟨[], [], [], [], [], []⟩

/-- Run the lj_temp acquisition loop over a list of per-cycle inputs. -/
noncomputable def ljTempRun (cap : ℕ) (inputs : List LjInput) : LjState :=
  inputs.foldl (ljTempCycle cap) ljInit

/- ===== src/Multiplexer.py: the 120-channel pipeline ===== -/

/-- `MUX_CHANNELS = 120` (src/Multiplexer.py line 11). -/
def MUX_CHANNELS : ℕ := 120

/-- `PLOT_UPDATE_INTERVAL = 10` (src/Multiplexer.py line 16). -/
def PLOT_UPDATE_INTERVAL : ℕ := 10

/-- Python's round to nearest integer with ties to even. -/
noncomputable def roundHalfEven (x : ℝ) : ℤ :=
  if Int.fract x = 1 / 2 then 2 * round (x / 2) else round x

/-- Python `round(x, 3)`: round to the nearest thousandth. -/
noncomputable def round3 (x : ℝ) : ℝ := (roundHalfEven (x * 1000) : ℝ) / 1000

/-- One line of the Multiplexer CSV file: the header of column names or
a data row of numeric values. -/
inductive CsvLine where
  | headerRow (cols : List String)
  | dataRow (vals : List ℝ)

/-- Whether a CSV line is the header. -/
def CsvLine.isHeader : CsvLine → Bool
  | .headerRow _ => true
  | .dataRow _ => false

/-- The header written by src/Multiplexer.py lines 155-157:
`["Timestamp"] + [f"AIN{i}_Voltage" ...] + [f"AIN{i}_Temp" ...]`. -/
def muxHeaders : List String :=
  "Timestamp" ::
    (((List.range MUX_CHANNELS).map fun i => "AIN" ++ toString i ++ "_Voltage") ++
     ((List.range MUX_CHANNELS).map fun i => "AIN" ++ toString i ++ "_Temp"))

/-- Opening `CSV_FILENAME` in append mode with the `file_exists` guard
(src/Multiplexer.py lines 151-157): a missing file starts as just the
header; an existing file keeps its content and gets no second header. -/
def openCsv (existing : Option (List CsvLine)) : List CsvLine :=
  match existing with
  | none => [CsvLine.headerRow muxHeaders]
  | some content => content

/-- Per-cycle inputs of the Multiplexer loop: the elapsed time and the
vector of channel voltages returned by `ljm.eReadNames`. -/
structure MuxInput where
  elapsed : ℝ
  voltages : List ℝ

/-- The mutable state of the Multiplexer loop: the history buffers
(lines 118-120), the CSV contents, the iteration counter, and — for the
redraw scheduler — the log of cycle numbers on which the cheap views
(bar charts) and the expensive views (time plot, overview) were
refreshed. -/
structure MuxState where
  time_history : List ℝ
  voltage_history : List (List ℝ)
  csv : List CsvLine
  iteration_count : ℕ
  cheapRefreshes : List ℕ
  expensiveRefreshes : List ℕ

/-- One iteration of the acquisition loop of src/Multiplexer.py lines
160-211: round the timestamp, convert every channel, append to the
history (time axis plus every per-channel series), refresh the bar
charts every cycle, refresh the expensive plots only when
`iteration_count % PLOT_UPDATE_INTERVAL == 0`, write one CSV data row
`[timestamp] + [round(v, 3) ...] + temperatures` and flush, then
increment the counter. -/
noncomputable def muxCycle (s : MuxState) (inp : MuxInput) : MuxState :=
  let timestamp := round3 inp.elapsed
  let temperatures := inp.voltages.map fun v => round3 (cheb_eq v)
  { time_history := s.time_history ++ [timestamp]
    voltage_history := List.zipWith (fun h v => h ++ [v]) s.voltage_history inp.voltages
    csv := s.csv ++
      [CsvLine.dataRow ([timestamp] ++ (inp.voltages.map fun v => round3 v) ++ temperatures)]
    iteration_count := s.iteration_count + 1
    cheapRefreshes := s.cheapRefreshes ++ [s.iteration_count]
    expensiveRefreshes :=
      if s.iteration_count % PLOT_UPDATE_INTERVAL = 0 then
        s.expensiveRefreshes ++ [s.iteration_count]
      else s.expensiveRefreshes }

/-- The state at loop entry: empty histories (lines 118-120), the CSV
as opened by the header guard, `iteration_count = 0` (line 160). -/
def muxInit (existing : Option (List CsvLine)) : MuxState :=
  ⟨[], List.replicate MUX_CHANNELS [], openCsv existing, 0, [], []⟩

/-- Run the Multiplexer acquisition loop from a given state. -/
noncomputable def muxRunFrom (s : MuxState) (inputs : List MuxInput) : MuxState :=
  inputs.foldl muxCycle s

/- ===== Cleanup protocol (src/Multiplexer.py lines 151-219,
   src/lj_temp.py lines 96-157) ===== -/

/-- Externally visible resource events of one session. -/
inductive Event where
  | readBatch
  | rowWrite
  | rowFlush
  | stopMessage
  | closeHandle
  | closeSink
deriving DecidableEq

/-- The two ways the unbounded acquisition loop can stop: the expected
external interrupt (caught by `except KeyboardInterrupt`) or any other
error propagating out of a cycle. -/
inductive ExitMode where
  | interrupt
  | error

/-- The per-cycle events of the loop body: a batched device read, a CSV
row write, and a flush, repeated once per completed cycle. -/
def loopEvents : ℕ → List Event
  | 0 => []
  | n + 1 => loopEvents n ++ [Event.readBatch, Event.rowWrite, Event.rowFlush]

/-- The event trace of a whole session under the `with` /
`try/except KeyboardInterrupt/finally` protocol: after the loop body
stops (either way), the `except` arm prints only on interrupt, the
`finally` arm releases the device handle, and leaving the `with` block
closes the record sink; an error then propagates after cleanup. -/
def sessionTrace (cycles : ℕ) (m : ExitMode) : List Event :=
  loopEvents cycles ++
    (match m with
     | ExitMode.interrupt => [Event.stopMessage]
     | ExitMode.error => []) ++
    [Event.closeHandle] ++ [Event.closeSink]

/-- A concrete run of seven samples used to exercise the bounded
retention property with `cap = 2`. -/
noncomputable def retentionInputs : List LjInput :=
  [⟨0, 0, 0⟩, ⟨1, 0, 0⟩, ⟨2, 0, 0⟩, ⟨3, 0, 0⟩, ⟨4, 0, 0⟩, ⟨5, 0, 0⟩, ⟨6, 0, 0⟩]

/- ===================================================================
   Lemmas and claim theorems
   =================================================================== -/

/-- Mathlib's `Real.arccos` already saturates outside `[-1, 1]`, so the
explicit clamp of the source is the identity under `Real.arccos`. -/
lemma arccos_clip (x : ℝ) : Real.arccos (clip x (-1) 1) = Real.arccos x := by
  unfold clip
  rcases le_total x (-1) with hlo | hlo
  · rw [max_eq_right hlo, min_eq_left (by norm_num : (-1 : ℝ) ≤ 1)]
    rw [Real.arccos_of_le_neg_one le_rfl, Real.arccos_of_le_neg_one hlo]
  · rw [max_eq_left hlo]
    rcases le_total x 1 with hhi | hhi
    · rw [min_eq_left hhi]
    · rw [min_eq_right hhi]
      rw [Real.arccos_of_one_le le_rfl, Real.arccos_of_one_le hhi]

/-- C1: the calibration transform `cheb_eq` agrees with the reference
definition `convertRef` (offset subtraction, normalization to `k`, and
the 7-term cosine expansion with coefficients `a0..a6`) at every input
voltage. -/
theorem cheb_eq_matches_reference (v : ℝ) : cheb_eq v = convertRef v := by
  unfold cheb_eq convertRef chebSum
  rw [arccos_clip]

/-- Every output of the 7-term cosine sum is bounded in magnitude by the
sum of the absolute values of the coefficients (at most 339). -/
lemma chebSum_abs_le (t : ℝ) : |chebSum t| ≤ 339 := by
  have key : ∀ a x : ℝ, -|a| ≤ a * Real.cos x ∧ a * Real.cos x ≤ |a| := by
    intro a x
    exact abs_le.mp
      (by rw [abs_mul]
          exact mul_le_of_le_one_right (abs_nonneg _) (Real.abs_cos_le_one x))
  have ea0 : |a0| = (207.313253 : ℝ) := by rw [a0]; exact abs_of_pos (by norm_num)
  have ea1 : |a1| = (126.180277 : ℝ) := by rw [a1, abs_of_neg (by norm_num)]; norm_num
  have ea2 : |a2| = (3.928505 : ℝ) := by rw [a2, abs_of_neg (by norm_num)]; norm_num
  have ea3 : |a3| = (0.942699 : ℝ) := by rw [a3, abs_of_neg (by norm_num)]; norm_num
  have ea4 : |a4| = (0.215084 : ℝ) := by rw [a4, abs_of_neg (by norm_num)]; norm_num
  have ea5 : |a5| = (0.074933 : ℝ) := by rw [a5, abs_of_neg (by norm_num)]; norm_num
  have ea6 : |a6| = (0.016769 : ℝ) := by rw [a6, abs_of_neg (by norm_num)]; norm_num
  obtain ⟨l0, u0⟩ := key a0 (0 * t)
  obtain ⟨l1, u1⟩ := key a1 (1 * t)
  obtain ⟨l2, u2⟩ := key a2 (2 * t)
  obtain ⟨l3, u3⟩ := key a3 (3 * t)
  obtain ⟨l4, u4⟩ := key a4 (4 * t)
  obtain ⟨l5, u5⟩ := key a5 (5 * t)
  obtain ⟨l6, u6⟩ := key a6 (6 * t)
  rw [ea0] at l0 u0; rw [ea1] at l1 u1; rw [ea2] at l2 u2; rw [ea3] at l3 u3
  rw [ea4] at l4 u4; rw [ea5] at l5 u5; rw [ea6] at l6 u6
  rw [abs_le]
  unfold chebSum
  constructor <;> [linarith; linarith]

/-- Saturation helper: clipping to `[-1, 1]` sends any value at least 1
to 1. -/
lemma clip_of_one_le {x : ℝ} (hx : 1 ≤ x) : clip x (-1) 1 = 1 := by
  unfold clip
  rw [max_eq_left (le_trans (by norm_num) hx), min_eq_right hx]

/-- Saturation helper: clipping to `[-1, 1]` sends any value at most -1
to -1. -/
lemma clip_of_le_neg_one {x : ℝ} (hx : x ≤ -1) : clip x (-1) 1 = -1 := by
  unfold clip
  rw [max_eq_right hx]
  exact min_eq_left (by norm_num)

/-- At input `offset_v + Zu` the normalized argument is exactly 1. -/
lemma kOf_upper : kOf (offset_v + Zu) = 1 := by
  unfold kOf offset_v Zu Zl
  norm_num

/-- At input `offset_v + Zl` the normalized argument is exactly -1. -/
lemma kOf_lower : kOf (offset_v + Zl) = -1 := by
  unfold kOf offset_v Zu Zl
  norm_num

/-- C2: `cheb_eq` clamps the normalized argument before `arccos`, so an
input whose `k` lies beyond `[-1, 1]` saturates to the value of
`cheb_eq` at the nearest calibrated extreme (`k = 1` at `offset_v + Zu`,
`k = -1` at `offset_v + Zl`), and every output is bounded (finite). -/
theorem cheb_eq_saturates (v : ℝ) :
    (1 ≤ kOf v → cheb_eq v = cheb_eq (offset_v + Zu)) ∧
    (kOf v ≤ -1 → cheb_eq v = cheb_eq (offset_v + Zl)) ∧
    |cheb_eq v| ≤ 339 := by
  refine ⟨fun h => ?_, fun h => ?_, ?_⟩
  · unfold cheb_eq
    rw [clip_of_one_le h, kOf_upper, clip_of_one_le le_rfl]
  · unfold cheb_eq
    rw [clip_of_le_neg_one h, kOf_lower, clip_of_le_neg_one le_rfl]
  · exact chebSum_abs_le _

/-- Witness for C2 at the concrete out-of-range input `v = 100`. -/
theorem cheb_eq_saturates_wit :
    (1 : ℝ) ≤ kOf 100 ∧ cheb_eq 100 = cheb_eq (offset_v + Zu) ∧
    |cheb_eq (100 : ℝ)| ≤ 339 := by
  have hk : (1 : ℝ) ≤ kOf 100 := by unfold kOf offset_v Zu Zl; norm_num
  exact ⟨hk, (cheb_eq_saturates 100).1 hk, (cheb_eq_saturates 100).2.2⟩

/-- C8: the calibration transform is pure and deterministic (repeated
evaluations agree), and at the golden input `2.8625` it returns the one
value fixed by the documented formula `convertRef`, which is bounded
(finite). -/
theorem cheb_eq_deterministic_golden :
    (∀ v : ℝ, cheb_eq v = cheb_eq v) ∧
    cheb_eq 2.8625 = convertRef 2.8625 ∧
    |cheb_eq (2.8625 : ℝ)| ≤ 339 := by
  refine ⟨fun _ => rfl, ?_, chebSum_abs_le _⟩
  unfold cheb_eq convertRef chebSum
  rw [arccos_clip]

/-- A list of length at most `cap` is unchanged by `lastN cap`. -/
lemma lastN_of_le {α : Type} {cap : ℕ} {l : List α} (h : l.length ≤ cap) :
    lastN cap l = l := by
  unfold lastN
  rw [Nat.sub_eq_zero_of_le h, List.drop_zero]

/-- Length of `lastN`. -/
lemma lastN_length {α : Type} (cap : ℕ) (l : List α) :
    (lastN cap l).length = l.length - (l.length - cap) := by
  unfold lastN
  rw [List.length_drop]

/-- Trimming, appending one element, and trimming again is the same as
trimming after the append. -/
lemma lastN_append_last {α : Type} (cap : ℕ) (l : List α) (x : α) :
    lastN cap (lastN cap l ++ [x]) = lastN cap (l ++ [x]) := by
  rcases Nat.eq_zero_or_pos cap with hcap | hcap
  · subst hcap
    unfold lastN
    simp
  · unfold lastN
    have hn1 : (l.drop (l.length - cap) ++ [x]).length - cap ≤
        (l.drop (l.length - cap)).length := by
      simp only [List.length_append, List.length_drop, List.length_cons,
        List.length_nil]
      omega
    have hn2 : (l ++ [x]).length - cap ≤ l.length := by
      simp only [List.length_append, List.length_cons, List.length_nil]
      omega
    rw [List.drop_append_eq_append_drop, List.drop_append_eq_append_drop,
      Nat.sub_eq_zero_of_le hn1, Nat.sub_eq_zero_of_le hn2, List.drop_zero,
      List.drop_drop]
    congr 1
    congr 1
    simp only [List.length_append, List.length_drop, List.length_cons,
      List.length_nil]
    omega

/-- Appending below the cap commutes with `lastN`. -/
lemma lastN_append_of_small {α : Type} {cap : ℕ} {l : List α} (x : α)
    (h : l.length + 1 ≤ cap) :
    lastN cap l ++ [x] = lastN cap (l ++ [x]) := by
  rw [lastN_of_le (le_trans (Nat.le_succ _) h),
    lastN_of_le (by simpa using h)]

/-- After any run of the lj_temp loop, each buffer holds exactly the
last `cap` elements of the full per-cycle series. -/
lemma ljTempRun_buffers (cap : ℕ) (inputs : List LjInput) :
    (ljTempRun cap inputs).time_data = lastN cap (inputs.map LjInput.now) ∧
    (ljTempRun cap inputs).real_voltage_data =
      lastN cap (inputs.map fun i => i.ain1 - i.ain0) ∧
    (ljTempRun cap inputs).ain1_data = lastN cap (inputs.map LjInput.ain1) ∧
    (ljTempRun cap inputs).temp_data =
      lastN cap (inputs.map fun i => tempOfVoltage (i.ain1 - i.ain0)) := by
  induction inputs using List.reverseRecOn with
  | nil => simp [ljTempRun, ljInit, lastN]
  | append_singleton xs x ih =>
    obtain ⟨h1, h2, h3, h4⟩ := ih
    have hrun : ljTempRun cap (xs ++ [x]) = ljTempCycle cap (ljTempRun cap xs) x := by
      simp [ljTempRun, List.foldl_append]
    rw [hrun]
    simp only [ljTempCycle, h1, h2, h3, h4, List.map_append, List.map_cons,
      List.map_nil]
    by_cases hc : (lastN cap (xs.map LjInput.now) ++ [x.now]).length > cap
    · rw [if_pos hc]
      exact ⟨lastN_append_last .., lastN_append_last .., lastN_append_last ..,
        lastN_append_last ..⟩
    · rw [if_neg hc]
      have hxs : xs.length + 1 ≤ cap := by
        simp only [not_lt, List.length_append, lastN_length, List.length_map,
          List.length_cons, List.length_nil] at hc
        omega
      refine ⟨?_, ?_, ?_, ?_⟩ <;>
        exact lastN_append_of_small _ (by simp only [List.length_map]; omega)

/-- One Multiplexer cycle extends the time axis and every per-channel
series by exactly one entry, preserving their length alignment. -/
lemma muxCycle_channel_lengths (s : MuxState) (inp : MuxInput)
    (hv : inp.voltages.length = s.voltage_history.length)
    (h : ∀ l ∈ s.voltage_history, l.length = s.time_history.length) :
    ∀ l ∈ (muxCycle s inp).voltage_history,
      l.length = (muxCycle s inp).time_history.length := by
  intro l hl
  simp only [muxCycle] at hl ⊢
  rw [List.mem_iff_getElem] at hl
  obtain ⟨i, hi, heq⟩ := hl
  have hi1 : i < s.voltage_history.length := by
    simp only [List.length_zipWith] at hi
    omega
  have hi2 : i < inp.voltages.length := by
    simp only [List.length_zipWith] at hi
    omega
  rw [List.getElem_zipWith] at heq
  rw [← heq]
  simp only [List.length_append, List.length_cons, List.length_nil]
  have hmem : s.voltage_history[i] ∈ s.voltage_history := List.getElem_mem hi1
  rw [h _ hmem]

/-- The Multiplexer invariant (120 per-channel series, all as long as
the time axis) is preserved along any run. -/
lemma muxRunFrom_inv (inputs : List MuxInput) :
    ∀ s : MuxState, (∀ i ∈ inputs, i.voltages.length = MUX_CHANNELS) →
      s.voltage_history.length = MUX_CHANNELS →
      (∀ l ∈ s.voltage_history, l.length = s.time_history.length) →
      (muxRunFrom s inputs).voltage_history.length = MUX_CHANNELS ∧
      ∀ l ∈ (muxRunFrom s inputs).voltage_history,
        l.length = (muxRunFrom s inputs).time_history.length := by
  induction inputs with
  | nil => exact fun s _ h1 h2 => ⟨h1, h2⟩
  | cons x xs ih =>
    intro s hw h1 h2
    have hx : x.voltages.length = MUX_CHANNELS := hw x (List.mem_cons_self _ _)
    have step1 : (muxCycle s x).voltage_history.length = MUX_CHANNELS := by
      simp only [muxCycle, List.length_zipWith, h1, hx, min_self]
    have step2 := muxCycle_channel_lengths s x (by rw [hx, h1]) h2
    exact ih (muxCycle s x) (fun i hi => hw i (List.mem_cons_of_mem _ hi)) step1 step2

/-- C3: the history length invariant.  For the lj_temp loop the shared
time axis and every per-channel series (the two raw voltage series and
the derived temperature series) have equal length after every cycle,
and for the Multiplexer loop every per-channel voltage series has the
length of the shared time axis after every cycle. -/
theorem history_lengths_aligned (cap : ℕ) (ljIns : List LjInput)
    (muxIns : List MuxInput)
    (hw : ∀ i ∈ muxIns, i.voltages.length = MUX_CHANNELS) :
    ((ljTempRun cap ljIns).time_data.length =
        (ljTempRun cap ljIns).real_voltage_data.length ∧
      (ljTempRun cap ljIns).time_data.length =
        (ljTempRun cap ljIns).ain1_data.length ∧
      (ljTempRun cap ljIns).time_data.length =
        (ljTempRun cap ljIns).temp_data.length) ∧
    ∀ l ∈ (muxRunFrom (muxInit none) muxIns).voltage_history,
      l.length = (muxRunFrom (muxInit none) muxIns).time_history.length := by
  constructor
  · obtain ⟨h1, h2, h3, h4⟩ := ljTempRun_buffers cap ljIns
    rw [h1, h2, h3, h4]
    simp [lastN_length, List.length_map]
  · refine (muxRunFrom_inv muxIns (muxInit none) hw ?_ ?_).2
    · simp [muxInit]
    · intro l hl
      simp only [muxInit] at hl ⊢
      rw [List.eq_of_mem_replicate hl]

/-- Witness for C3 with one concrete cycle on each loop. -/
theorem history_lengths_aligned_wit :
    (∀ i ∈ [MuxInput.mk 0 (List.replicate 120 0)],
      i.voltages.length = MUX_CHANNELS) ∧
    (((ljTempRun 1000 [LjInput.mk 0 0 0]).time_data.length =
        (ljTempRun 1000 [LjInput.mk 0 0 0]).real_voltage_data.length ∧
      (ljTempRun 1000 [LjInput.mk 0 0 0]).time_data.length =
        (ljTempRun 1000 [LjInput.mk 0 0 0]).ain1_data.length ∧
      (ljTempRun 1000 [LjInput.mk 0 0 0]).time_data.length =
        (ljTempRun 1000 [LjInput.mk 0 0 0]).temp_data.length) ∧
    ∀ l ∈ (muxRunFrom (muxInit none)
        [MuxInput.mk 0 (List.replicate 120 0)]).voltage_history,
      l.length = (muxRunFrom (muxInit none)
        [MuxInput.mk 0 (List.replicate 120 0)]).time_history.length) := by
  have hw : ∀ i ∈ [MuxInput.mk 0 (List.replicate 120 0)],
      i.voltages.length = MUX_CHANNELS := by
    intro i hi
    simp only [List.mem_singleton] at hi
    subst hi
    simp [MUX_CHANNELS]
  exact ⟨hw, history_lengths_aligned 1000 [LjInput.mk 0 0 0] _ hw⟩

/-- C4: bounded retention evicts FIFO in lock-step.  After appending
`cap + 5` samples to the lj_temp buffers (trim threshold `cap`),
exactly the `cap` most recent samples remain in every buffer, in the
original order (each buffer is the full series with its first five
entries dropped), and the shared time axis and every series have
length `cap`. -/
theorem bounded_retention_fifo (cap : ℕ) (inputs : List LjInput)
    (hlen : inputs.length = cap + 5) :
    (ljTempRun cap inputs).time_data = (inputs.map LjInput.now).drop 5 ∧
    (ljTempRun cap inputs).real_voltage_data =
      (inputs.map fun i => i.ain1 - i.ain0).drop 5 ∧
    (ljTempRun cap inputs).ain1_data = (inputs.map LjInput.ain1).drop 5 ∧
    (ljTempRun cap inputs).temp_data =
      (inputs.map fun i => tempOfVoltage (i.ain1 - i.ain0)).drop 5 ∧
    (ljTempRun cap inputs).time_data.length = cap ∧
    (ljTempRun cap inputs).real_voltage_data.length = cap ∧
    (ljTempRun cap inputs).ain1_data.length = cap ∧
    (ljTempRun cap inputs).temp_data.length = cap := by
  obtain ⟨h1, h2, h3, h4⟩ := ljTempRun_buffers cap inputs
  have key : ∀ {β : Type} (f : LjInput → β),
      lastN cap (inputs.map f) = (inputs.map f).drop 5 := by
    intro β f
    unfold lastN
    rw [List.length_map, hlen]
    congr 1
    omega
  have klen : ∀ {β : Type} (f : LjInput → β),
      ((inputs.map f).drop 5).length = cap := by
    intro β f
    rw [List.length_drop, List.length_map, hlen]
    omega
  rw [h1, h2, h3, h4, key, key, key, key]
  exact ⟨rfl, rfl, rfl, rfl, klen _, klen _, klen _, klen _⟩

/-- Witness for C4: seven concrete samples with retention `cap = 2`. -/
theorem bounded_retention_fifo_wit :
    retentionInputs.length = 2 + 5 ∧
    ((ljTempRun 2 retentionInputs).time_data =
        (retentionInputs.map LjInput.now).drop 5 ∧
      (ljTempRun 2 retentionInputs).real_voltage_data =
        (retentionInputs.map fun i => i.ain1 - i.ain0).drop 5 ∧
      (ljTempRun 2 retentionInputs).ain1_data =
        (retentionInputs.map LjInput.ain1).drop 5 ∧
      (ljTempRun 2 retentionInputs).temp_data =
        (retentionInputs.map fun i => tempOfVoltage (i.ain1 - i.ain0)).drop 5 ∧
      (ljTempRun 2 retentionInputs).time_data.length = 2 ∧
      (ljTempRun 2 retentionInputs).real_voltage_data.length = 2 ∧
      (ljTempRun 2 retentionInputs).ain1_data.length = 2 ∧
      (ljTempRun 2 retentionInputs).temp_data.length = 2) :=
  ⟨rfl, bounded_retention_fifo 2 retentionInputs rfl⟩

/-- The loop body alone never releases the device handle. -/
lemma loopEvents_count_closeHandle (n : ℕ) :
    (loopEvents n).count Event.closeHandle = 0 := by
  induction n with
  | zero => rfl
  | succ k ih =>
    rw [loopEvents, List.count_append, ih]
    decide

/-- The loop body alone never closes the record sink. -/
lemma loopEvents_count_closeSink (n : ℕ) :
    (loopEvents n).count Event.closeSink = 0 := by
  induction n with
  | zero => rfl
  | succ k ih =>
    rw [loopEvents, List.count_append, ih]
    decide

/-- C7: on every exit of the acquisition loop — external interrupt or an
error propagating out of a cycle — the session trace releases the
device handle exactly once and closes the record sink exactly once. -/
theorem cleanup_runs_once (cycles : ℕ) (m : ExitMode) :
    (sessionTrace cycles m).count Event.closeHandle = 1 ∧
    (sessionTrace cycles m).count Event.closeSink = 1 := by
  cases m <;>
    simp +decide [sessionTrace, List.count_append, loopEvents_count_closeHandle,
      loopEvents_count_closeSink]

/-- Along any Multiplexer run, the cheap views are refreshed on every
cycle, the expensive views exactly on the cycles whose iteration count
is divisible by `PLOT_UPDATE_INTERVAL`, and the counter advances by one
per cycle. -/
lemma muxRunFrom_refreshes (inputs : List MuxInput) :
    ∀ s : MuxState,
      (muxRunFrom s inputs).cheapRefreshes =
        s.cheapRefreshes ++ List.range' s.iteration_count inputs.length ∧
      (muxRunFrom s inputs).expensiveRefreshes =
        s.expensiveRefreshes ++
          (List.range' s.iteration_count inputs.length).filter
            (fun i => decide (i % PLOT_UPDATE_INTERVAL = 0)) ∧
      (muxRunFrom s inputs).iteration_count =
        s.iteration_count + inputs.length := by
  induction inputs with
  | nil => intro s; simp [muxRunFrom]
  | cons x xs ih =>
    intro s
    obtain ⟨ih1, ih2, ih3⟩ := ih (muxCycle s x)
    have hstep : muxRunFrom s (x :: xs) = muxRunFrom (muxCycle s x) xs := rfl
    rw [hstep]
    refine ⟨?_, ?_, ?_⟩
    · rw [ih1, List.length_cons, List.range'_succ]
      by_cases hd : s.iteration_count % PLOT_UPDATE_INTERVAL = 0 <;>
        simp [muxCycle, hd]
    · rw [ih2, List.length_cons, List.range'_succ, List.filter_cons]
      by_cases hd : s.iteration_count % PLOT_UPDATE_INTERVAL = 0 <;>
        simp [muxCycle, hd]
    · rw [ih3]
      simp [muxCycle]
      omega

/-- C5: redraw decoupling.  With `PLOT_UPDATE_INTERVAL = 10`, over 25
acquisition cycles numbered 0..24 the expensive views (selected-channel
time plot and multi-channel overview) are refreshed exactly on cycles
0, 10 and 20, while the cheap bar charts are refreshed on every one of
the 25 cycles. -/
theorem redraw_schedule (existing : Option (List CsvLine))
    (inputs : List MuxInput) (h : inputs.length = 25) :
    (muxRunFrom (muxInit existing) inputs).expensiveRefreshes = [0, 10, 20] ∧
    (muxRunFrom (muxInit existing) inputs).cheapRefreshes = List.range 25 := by
  obtain ⟨h1, h2, _⟩ := muxRunFrom_refreshes inputs (muxInit existing)
  rw [h] at h1 h2
  have e1 : (muxInit existing).cheapRefreshes = [] := rfl
  have e2 : (muxInit existing).expensiveRefreshes = [] := rfl
  have e3 : (muxInit existing).iteration_count = 0 := rfl
  rw [e1, e3, List.nil_append] at h1
  rw [e2, e3, List.nil_append] at h2
  constructor
  · rw [h2]
    decide
  · rw [h1, List.range_eq_range']

/-- Witness for C5: 25 concrete acquisition cycles. -/
theorem redraw_schedule_wit :
    (List.replicate 25 (MuxInput.mk 0 [])).length = 25 ∧
    ((muxRunFrom (muxInit none)
        (List.replicate 25 (MuxInput.mk 0 []))).expensiveRefreshes = [0, 10, 20] ∧
      (muxRunFrom (muxInit none)
        (List.replicate 25 (MuxInput.mk 0 []))).cheapRefreshes = List.range 25) :=
  ⟨rfl, redraw_schedule none (List.replicate 25 (MuxInput.mk 0 [])) rfl⟩

/-- Along any Multiplexer run the CSV grows by exactly the data rows of
the processed cycles, in order. -/
lemma muxRunFrom_csv (inputs : List MuxInput) :
    ∀ s : MuxState, (muxRunFrom s inputs).csv =
      s.csv ++ inputs.map (fun inp => CsvLine.dataRow
        ([round3 inp.elapsed] ++ (inp.voltages.map fun v => round3 v) ++
          (inp.voltages.map fun v => round3 (cheb_eq v)))) := by
  induction inputs with
  | nil => intro s; simp [muxRunFrom]
  | cons x xs ih =>
    intro s
    have hstep : muxRunFrom s (x :: xs) = muxRunFrom (muxCycle s x) xs := rfl
    rw [hstep, ih]
    simp [muxCycle, List.append_assoc]

/-- Data rows contributed by cycles are never headers. -/
lemma filter_isHeader_map (l : List MuxInput) :
    ((l.map fun inp => CsvLine.dataRow
        ([round3 inp.elapsed] ++ (inp.voltages.map fun v => round3 v) ++
          (inp.voltages.map fun v => round3 (cheb_eq v)))).filter
      CsvLine.isHeader) = [] := by
  induction l with
  | nil => rfl
  | cons x xs ih =>
    rw [List.map_cons, List.filter_cons, ih]
    rfl

/-- All rows contributed by cycles survive the non-header filter. -/
lemma filter_not_isHeader_map (l : List MuxInput) :
    ((l.map fun inp => CsvLine.dataRow
        ([round3 inp.elapsed] ++ (inp.voltages.map fun v => round3 v) ++
          (inp.voltages.map fun v => round3 (cheb_eq v)))).filter
      fun c => !(CsvLine.isHeader c)) =
      l.map fun inp => CsvLine.dataRow
        ([round3 inp.elapsed] ++ (inp.voltages.map fun v => round3 v) ++
          (inp.voltages.map fun v => round3 (cheb_eq v))) := by
  induction l with
  | nil => rfl
  | cons x xs ih =>
    rw [List.map_cons, List.filter_cons, ih]
    rfl

/-- C6: record sink append semantics.  A run on a fresh file writes the
header once and then one row per cycle (`n + 1` lines, exactly one
header); re-opening the resulting populated file in append mode and
running further cycles adds exactly one line per row and never writes a
second header. -/
theorem record_sink_append (inputs₁ inputs₂ : List MuxInput) :
    (muxRunFrom (muxInit none) inputs₁).csv.length = inputs₁.length + 1 ∧
    ((muxRunFrom (muxInit none) inputs₁).csv.filter CsvLine.isHeader).length = 1 ∧
    (muxRunFrom (muxInit (some (muxRunFrom (muxInit none) inputs₁).csv))
        inputs₂).csv.length =
      (muxRunFrom (muxInit none) inputs₁).csv.length + inputs₂.length ∧
    ((muxRunFrom (muxInit (some (muxRunFrom (muxInit none) inputs₁).csv))
        inputs₂).csv.filter CsvLine.isHeader).length = 1 := by
  have hrun1 := muxRunFrom_csv inputs₁ (muxInit none)
  have hrun2 := muxRunFrom_csv inputs₂
    (muxInit (some (muxRunFrom (muxInit none) inputs₁).csv))
  have hinit1 : (muxInit none).csv = [CsvLine.headerRow muxHeaders] := rfl
  have hinit2 : (muxInit (some (muxRunFrom (muxInit none) inputs₁).csv)).csv =
      (muxRunFrom (muxInit none) inputs₁).csv := rfl
  refine ⟨?_, ?_, ?_, ?_⟩
  · rw [hrun1, hinit1]
    simp [Nat.add_comm]
  · rw [hrun1, hinit1, List.filter_append, filter_isHeader_map]
    rfl
  · rw [hrun2, hinit2]
    simp
  · rw [hrun2, hinit2, List.filter_append, filter_isHeader_map,
      hrun1, hinit1, List.filter_append, filter_isHeader_map]
    rfl

/-- C9: persisted-row layout.  A fresh-file Multiplexer run produces
exactly the header `"Timestamp"` followed by one voltage column and one
temperature column per channel, then one data row per cycle of the form
`[timestamp] ++ voltages ++ temperatures`, every value rounded to 3
decimal places (`round3`), with the temperatures obtained by `cheb_eq`;
the number of data rows equals the number of cycles. -/
theorem csv_row_layout (inputs : List MuxInput) :
    (muxRunFrom (muxInit none) inputs).csv =
      CsvLine.headerRow ("Timestamp" ::
        (((List.range MUX_CHANNELS).map fun i => "AIN" ++ toString i ++ "_Voltage") ++
         ((List.range MUX_CHANNELS).map fun i => "AIN" ++ toString i ++ "_Temp"))) ::
      inputs.map (fun inp => CsvLine.dataRow
        ([round3 inp.elapsed] ++ (inp.voltages.map fun v => round3 v) ++
          (inp.voltages.map fun v => round3 (cheb_eq v)))) ∧
    ((muxRunFrom (muxInit none) inputs).csv.filter
      fun c => !(CsvLine.isHeader c)).length = inputs.length := by
  have hrun := muxRunFrom_csv inputs (muxInit none)
  have hinit : (muxInit none).csv = [CsvLine.headerRow muxHeaders] := rfl
  constructor
  · rw [hrun, hinit, muxHeaders]
    rfl
  · rw [hrun, hinit, List.filter_append, filter_not_isHeader_map]
    simp [CsvLine.isHeader]

/-- The unclamped conversion returns NaN exactly when the normalized
argument leaves the `arccos` domain. -/
lemma cheb_eq_lj_none {v : ℝ} (h : 1 < kOf v ∨ kOf v < -1) :
    cheb_eq_lj v = none := by
  unfold cheb_eq_lj arccosN
  rw [if_neg]
  · rfl
  · rintro ⟨hl, hr⟩
    rcases h with h | h <;> linarith

/-- When the cap is positive, a trimmed append still ends with the
appended element. -/
lemma lastN_append_exists {α : Type} (cap : ℕ) (hcap : 0 < cap)
    (l : List α) (x : α) :
    ∃ p, lastN cap (l ++ [x]) = p ++ [x] := by
  refine ⟨l.drop ((l ++ [x]).length - cap), ?_⟩
  unfold lastN
  rw [List.drop_append_eq_append_drop]
  congr 1
  have hle : (l ++ [x]).length - cap ≤ l.length := by
    simp only [List.length_append, List.length_cons, List.length_nil]
    omega
  rw [Nat.sub_eq_zero_of_le hle]
  rfl

set_option maxRecDepth 8000 in
/-- C10: in the unclamped lj_temp variant an input whose normalized `k`
leaves `[-1, 1]` raises no exception (numpy `arccos` yields NaN, so the
`try/except` guard is unreachable: `chebEvalExc` always returns
`Except.ok`), and the NaN is appended to the temperature history buffer
and written unchanged into the temperature CSV row. -/
theorem unclamped_nan_flows (s : LjState) (inp : LjInput)
    (h : 1 < kOf (inp.ain1 - inp.ain0) ∨ kOf (inp.ain1 - inp.ain0) < -1) :
    chebEvalExc (inp.ain1 - inp.ain0) =
      Except.ok (cheb_eq_lj (inp.ain1 - inp.ain0)) ∧
    tempOfVoltage (inp.ain1 - inp.ain0) = cheb_eq_lj (inp.ain1 - inp.ain0) ∧
    cheb_eq_lj (inp.ain1 - inp.ain0) = none ∧
    (ljTempCycle 1000 s inp).temp_rows = s.temp_rows ++ [[some inp.now, none]] ∧
    ∃ p : List Flt, (ljTempCycle 1000 s inp).temp_data = p ++ [none] := by
  have hnone : cheb_eq_lj (inp.ain1 - inp.ain0) = none := cheb_eq_lj_none h
  have htemp : tempOfVoltage (inp.ain1 - inp.ain0) = none := by
    unfold tempOfVoltage chebEvalExc
    exact hnone
  refine ⟨rfl, rfl, hnone, ?_, ?_⟩
  · simp only [ljTempCycle, htemp]
    by_cases hc : 1000 < s.time_data.length + 1
    · rw [if_pos (by simpa using hc)]
    · rw [if_neg (by simpa using hc)]
  · simp only [ljTempCycle, htemp]
    by_cases hc : 1000 < s.time_data.length + 1
    · rw [if_pos (by simpa using hc)]
      exact lastN_append_exists 1000 (by norm_num) _ _
    · rw [if_neg (by simpa using hc)]
      exact ⟨s.temp_data, rfl⟩

/-- Witness for C10 at the concrete out-of-range reading
`ain0 = 0, ain1 = 10`. -/
theorem unclamped_nan_flows_wit :
    (1 < kOf ((10 : ℝ) - 0) ∨ kOf ((10 : ℝ) - 0) < -1) ∧
    (cheb_eq_lj ((10 : ℝ) - 0) = none ∧
      (ljTempCycle 1000 ljInit (LjInput.mk 0 0 10)).temp_rows =
        ljInit.temp_rows ++ [[some (0 : ℝ), none]] ∧
      ∃ p : List Flt,
        (ljTempCycle 1000 ljInit (LjInput.mk 0 0 10)).temp_data = p ++ [none]) := by
  have h : 1 < kOf ((10 : ℝ) - 0) ∨ kOf ((10 : ℝ) - 0) < -1 := by
    left
    unfold kOf offset_v Zu Zl
    norm_num
  obtain ⟨_, _, h3, h4, h5⟩ := unclamped_nan_flows ljInit (LjInput.mk 0 0 10) h
  exact ⟨h, h3, h4, h5⟩

end LJReader
